import Mathlib

/-!
Shallow embedding of the background merge scheduler of `StorageMergeTree`
(src/dbms/include/DB/Storages/StorageMergeTree.h).

The header contains, inline, the bodies of `optimize()` and of the scoped guard
`CurrentlyMergingPartsTagger` (constructor, lines 110-121; destructor, lines
123-139), together with the per-table state `currently_merging` (line 92) and
its mutex (line 93).  The bodies of `merge`, `canMergeParts`, the selector
(`MergeTreeDataMerger`), the disk-space monitor and the part-set commit are not
part of the sources here (only declarations and call sites are), so those are
modelled from the specification and are marked as such in their doc comments.

Machine integers (sizes in bytes) are modelled as `Nat`; the conditions involved
never overflow-wrap in the claims considered.  Exceptions are modelled with
`Except`; the C++ "state after an exception escaped / was caught" is returned
explicitly next to the `Except` value.
-/

/-- A data part: immutable unit of stored sorted data.  Modelled with the
attributes the merge scheduler consults: a unique name, the covered
block-number range `[rangeBegin, rangeEnd)`, a byte size and a partition key
(spec §3, "DataPart"). -/
structure DataPart where
  name : String
  rangeBegin : Nat
  rangeEnd : Nat
  bytes : Nat
  partitionKey : Nat
deriving DecidableEq, Repr

/-- A disk-space reservation held against a storage path (spec §3,
"Reservation"; `DiskSpaceMonitor::ReservationPtr` at StorageMergeTree.h:107). -/
structure Reservation where
  path : String
  bytes : Nat
deriving DecidableEq, Repr

/-- The two error kinds the tagging path can raise: `InsufficientSpace` from the
disk-space monitor, and `LOGICAL_ERROR` (StorageMergeTree.h:118,131). -/
inductive MergeError where
  | InsufficientSpace
  | LogicalError
deriving DecidableEq, Repr

/-- The per-table state the merge scheduler manipulates: the set of Active
parts (`MergeTreeData` / PartSet), the Outdated parts retired by commits, the
`currently_merging` set (StorageMergeTree.h:92), the outstanding disk
reservations with the path's free space, and whether partitioning is enabled.
Sets are modelled as duplicate-free lists. -/
structure MTState where
  dataParts : List DataPart
  outdated : List DataPart
  currently_merging : List DataPart
  reservations : List Reservation
  freeSpace : Nat
  fullPath : String
  partitioning : Bool
deriving DecidableEq, Repr

/-- Sum of bytes held by outstanding reservations on `path` (spec §4.4). -/
def DiskSpaceMonitor.reservedSum (rs : List Reservation) (path : String) : Nat :=
  ((rs.filter (fun r => decide (r.path = path))).map Reservation.bytes).sum

/-- Modelled from the spec: `DiskSpaceMonitor::reserve` (DiskSpaceMonitor.h is
not among the sources; spec §4.4): subtract the bytes already held by
outstanding reservations on the path from its free space and fail with
`InsufficientSpace` if the remainder is smaller than requested, else record a
new reservation. -/
def DiskSpaceMonitor.reserve (free : Nat) (rs : List Reservation) (path : String)
    (bytes : Nat) : Except MergeError (Reservation × List Reservation) :=
  if DiskSpaceMonitor.reservedSum rs path + bytes ≤ free then
    Except.ok (⟨path, bytes⟩, ⟨path, bytes⟩ :: rs)
  else
    Except.error MergeError.InsufficientSpace

/-- Releasing a reservation removes its hold (spec §4.4, release on
`Reservation` destruction). -/
def DiskSpaceMonitor.release (rs : List Reservation) (r : Reservation) : List Reservation :=
  rs.erase r

/-- `std::set::insert` of one element. -/
def setInsert (l : List DataPart) (p : DataPart) : List DataPart :=
  if p ∈ l then l else l ++ [p]

/-- `currently_merging.insert(parts.begin(), parts.end())`
(StorageMergeTree.h:120). -/
def setInsertAll (l : List DataPart) (ps : List DataPart) : List DataPart :=
  ps.foldl setInsert l

/-- The scoped guard `CurrentlyMergingPartsTagger` (StorageMergeTree.h:104-140):
while it exists it marks its parts as `currently_merging` and holds the disk
reservation. -/
structure Tagger where
  parts : List DataPart
  reserved_space : Reservation
deriving DecidableEq, Repr

/-- `CurrentlyMergingPartsTagger`'s constructor (StorageMergeTree.h:110-121):
first requests the disk reservation (line 114, may raise `InsufficientSpace`);
then checks every part of the group against `currently_merging`, raising
`LOGICAL_ERROR` if any is already tagged (lines 115-119); only after all checks
pass inserts all of them (line 120).  When the `LOGICAL_ERROR` escapes the
constructor, C++ unwinding destroys the already-initialized `reserved_space`
member, which releases the reservation; that release is modelled explicitly.
The returned state is the state after the constructor finished or its exception
escaped. -/
def taggerConstruct (parts_ : List DataPart) (total_size : Nat) (s : MTState) :
    Except MergeError Tagger × MTState :=
  match DiskSpaceMonitor.reserve s.freeSpace s.reservations s.fullPath total_size with
  | Except.error e => (Except.error e, s)
  | Except.ok (resv, rs1) =>
    if parts_.any (fun p => decide (p ∈ s.currently_merging)) then
      (Except.error MergeError.LogicalError,
        { s with reservations := DiskSpaceMonitor.release rs1 resv })
    else
      (Except.ok ⟨parts_, resv⟩,
        { s with reservations := rs1,
                 currently_merging := setInsertAll s.currently_merging parts_ })

/-- The erase loop of `~CurrentlyMergingPartsTagger` (StorageMergeTree.h:128-133):
for each part in order, if it is absent from the set a `LOGICAL_ERROR` is
thrown — caught by the surrounding `try`/`catch` and only logged — so the loop
stops there and later parts are not erased.  Returns the resulting set and
whether an inconsistency was detected. -/
def untagLoop : List DataPart → List DataPart → List DataPart × Bool
  | cm, [] => (cm, false)
  | cm, p :: rest => if p ∈ cm then untagLoop (cm.erase p) rest else (cm, true)

/-- `CurrentlyMergingPartsTagger`'s destructor (StorageMergeTree.h:123-139):
under the mutex, erases the group's parts from `currently_merging`; any
exception is caught and logged (`tryLogCurrentException`, line 137), never
propagated.  After the body, member destruction releases `reserved_space`
unconditionally. -/
def taggerDestruct (t : Tagger) (s : MTState) : MTState :=
  { s with currently_merging := (untagLoop s.currently_merging t.parts).1,
           reservations := DiskSpaceMonitor.release s.reservations t.reserved_space }

/-- Modelled from the spec: the body of `StorageMergeTree::canMergeParts` is not
among the sources (only its declaration, StorageMergeTree.h:163-164).  Spec
§4.1: true iff `right` immediately follows `left` with no range gap, neither is
tagged, and (when partitioning is enabled) both share the same partition key. -/
def canMergeParts (s : MTState) (left right : DataPart) : Bool :=
  decide (left.rangeEnd = right.rangeBegin) &&
  !(decide (left ∈ s.currently_merging)) &&
  !(decide (right ∈ s.currently_merging)) &&
  (!s.partitioning || decide (left.partitionKey = right.partitionKey))

/-- Splits the range-ordered part list into maximal runs whose consecutive
members satisfy `canMergeParts`; `cur` is the last part added to the current
run `run`. -/
def splitRunsGo (s : MTState) (cur : DataPart) (run : List DataPart) :
    List DataPart → List (List DataPart)
  | [] => [run]
  | p :: rest =>
    if canMergeParts s cur p then splitRunsGo s p (run ++ [p]) rest
    else run :: splitRunsGo s p [p] rest

/-- All maximal mergeable runs of the table's Active parts. -/
def splitRuns (s : MTState) : List (List DataPart) :=
  match s.dataParts with
  | [] => []
  | p :: rest => splitRunsGo s p [p] rest

/-- All contiguous sub-runs (infixes) of a run. -/
def allInfixes (l : List DataPart) : List (List DataPart) :=
  l.tails.foldr (fun t acc => t.inits ++ acc) []

/-- Candidate merge groups for aggressive mode: maximal mergeable runs of
length ≥ 2 (spec §3 "MergeGroup", §4.1 "maximal contiguous run"). -/
def candidateRuns (s : MTState) : List (List DataPart) :=
  (splitRuns s).filter (fun r => decide (2 ≤ r.length))

/-- Candidate merge groups for non-aggressive mode: every contiguous run of
length ≥ 2 inside a maximal mergeable run (spec §4.1 "evaluates contiguous
runs of length ≥2"). -/
def candidateSubRuns (s : MTState) : List (List DataPart) :=
  ((splitRuns s).foldr (fun r acc => allInfixes r ++ acc) []).filter
    (fun r => decide (2 ≤ r.length))

/-- Picks the first list element strictly better than everything before it. -/
def pickBy {α : Type} (better : α → α → Bool) (l : List α) : Option α :=
  l.foldl (fun best r =>
    match best with
    | none => some r
    | some b => if better r b then some r else some b) none

/-- Total byte size of a group, used as the output-size estimate reserved for
the merge (spec §4.2). -/
def totalSize (g : List DataPart) : Nat :=
  (g.map DataPart.bytes).sum

/-- Modelled from the spec: `MergeTreeDataMerger::selectPartsToMerge`
(MergeTreeDataMerger.h is not among the sources; spec §4.1).  Aggressive mode
ignores the numeric policy and takes the maximal contiguous untagged run;
non-aggressive mode keeps only runs accepted by the (tunable, spec §9) policy
predicate `qualifies` and picks the cheapest by resulting size, ties broken by
earliest starting range (the fold keeps the earliest on ties). -/
def selectPartsToMerge (qualifies : List DataPart → Bool) (aggressive : Bool)
    (s : MTState) : Option (List DataPart) :=
  if aggressive then
    pickBy (fun r b => decide (b.length < r.length)) (candidateRuns s)
  else
    pickBy (fun r b => decide (totalSize r < totalSize b))
      ((candidateSubRuns s).filter qualifies)

/-- Modelled from the spec: the atomic part-set commit
(`MergeTreeData::replaceParts`; spec §3 "PartSet", §4.5): in one step the new
part becomes Active and the group's inputs flip to Outdated. -/
def commitSwap (g : List DataPart) (newPart : DataPart) (s : MTState) : MTState :=
  { s with dataParts := s.dataParts.filter (fun p => !(decide (p ∈ g))) ++ [newPart],
           outdated := s.outdated ++ g }

/-- Modelled from the spec: the body of `StorageMergeTree::merge` is not among
the sources (only its declaration, StorageMergeTree.h:159; spec §4.5): ask the
selector for a group (none ⇒ "no work"); construct a tagger (failure ⇒ "no
work", no side effects beyond the constructor's own unwinding); run the
executor (`exec`, the MergeTreeDataMerger contract, may fail); on success
atomically commit; the tagger's destructor runs on every path.  Returns whether
a merge occurred and the final state. -/
def merge (qualifies : List DataPart → Bool) (exec : List DataPart → Option DataPart)
    (aggressive : Bool) (s : MTState) : Bool × MTState :=
  match selectPartsToMerge qualifies aggressive s with
  | none => (false, s)
  | some g =>
    match taggerConstruct g (totalSize g) s with
    | (Except.error _, s1) => (false, s1)
    | (Except.ok t, s1) =>
      match exec g with
      | none => (false, taggerDestruct t s1)
      | some newPart => (true, taggerDestruct t (commitSwap g newPart s1))

/-- `StorageMergeTree::optimize` (StorageMergeTree.h:66-69): its entire body is
`return merge(true);`. -/
def optimize (qualifies : List DataPart → Bool) (exec : List DataPart → Option DataPart)
    (s : MTState) : Bool × MTState :=
  merge qualifies exec true s

/-- The scheduler-level state for the tagging transition system: the table
state together with the live taggers (the in-flight merge groups). -/
structure SchedState where
  mt : MTState
  inflight : List Tagger

/-- The tagging transitions of a table's merge scheduler: a `tag` step
constructs a tagger for a merge group (a duplicate-free group of parts, spec
§3 "MergeGroup") and requires the construction to succeed; an `untag` step
destroys one live tagger.  Commits do not touch the currently-merging set and
are omitted. -/
inductive SchedStep : SchedState → SchedState → Prop where
  | tag (σ : SchedState) (g : List DataPart) (total : Nat) (t : Tagger)
      (mt' : MTState) : g.Nodup →
      taggerConstruct g total σ.mt = (Except.ok t, mt') →
      SchedStep σ ⟨mt', t :: σ.inflight⟩
  | untag (σ : SchedState) (t : Tagger) (pre post : List Tagger) :
      σ.inflight = pre ++ t :: post →
      SchedStep σ ⟨taggerDestruct t σ.mt, pre ++ post⟩

/-- Reachability from a state with no in-flight merge and an empty
currently-merging set. -/
def SchedReachable (σ0 σ : SchedState) : Prop :=
  σ0.inflight = [] ∧ σ0.mt.currently_merging = [] ∧
  Relation.ReflTransGen SchedStep σ0 σ

/-- The tag-exclusivity invariant: the currently-merging set is duplicate
free, every live tagger's group is duplicate free, every live tagger's parts
are in the set, and distinct live taggers have disjoint groups. -/
def SchedInv (σ : SchedState) : Prop :=
  σ.mt.currently_merging.Nodup ∧
  (∀ t ∈ σ.inflight, t.parts.Nodup) ∧
  (∀ t ∈ σ.inflight, ∀ p ∈ t.parts, p ∈ σ.mt.currently_merging) ∧
  List.Pairwise (fun t u => ∀ p ∈ t.parts, p ∉ u.parts) σ.inflight

/-- The events of one `merge()` invocation that are relevant to the locking
discipline. -/
inductive MergeEvent where
  | lock
  | unlock
  | reserveSpace
  | checkTags
  | insertTags
  | execMerge
  | commitParts
  | removeTags
  | releaseSpace
deriving DecidableEq, Repr

/-- Modelled from the spec: the event trace of one `merge()` invocation (the
body of `StorageMergeTree::merge` is not among the sources).  The tagger
constructor runs with the caller holding the currently-merging mutex
(StorageMergeTree.h:113 records that the mutex is already locked there), so on
a construction failure the unwinding release of the reservation happens before
the caller's lock guard is destroyed; the destructor locks the mutex itself
(line 127) and the reservation is released after its body; merge execution and
the commit run outside the mutex (spec §5).  The three Booleans say whether
the reservation succeeded, whether the tag check passed, and whether merge
execution succeeded. -/
def mergeTrace (reserveOk tagOk execOk : Bool) : List MergeEvent :=
  [MergeEvent.lock, MergeEvent.reserveSpace] ++
  (if !reserveOk then [MergeEvent.unlock] else
    [MergeEvent.checkTags] ++
    (if !tagOk then [MergeEvent.releaseSpace, MergeEvent.unlock] else
      [MergeEvent.insertTags, MergeEvent.unlock, MergeEvent.execMerge] ++
      (if execOk then [MergeEvent.commitParts] else []) ++
      [MergeEvent.lock, MergeEvent.removeTags, MergeEvent.unlock,
        MergeEvent.releaseSpace]))

/-- Whether the mutex is held just before event `i` of the trace: strictly
more locks than unlocks among the first `i` events. -/
def heldBefore (tr : List MergeEvent) (i : Nat) : Bool :=
  decide ((tr.take i).count MergeEvent.unlock < (tr.take i).count MergeEvent.lock)

/-! ### Concrete inputs used to instantiate the theorems -/

/-- A small concrete part covering blocks `[0, 10)`. -/
def wpA : DataPart := ⟨"a", 0, 10, 100, 0⟩

/-- A small concrete part covering blocks `[10, 20)`. -/
def wpB : DataPart := ⟨"b", 10, 20, 100, 0⟩

/-- A small concrete part covering blocks `[20, 25)`. -/
def wpC : DataPart := ⟨"c", 20, 25, 10, 0⟩

/-- A concrete merged output part covering blocks `[0, 25)`. -/
def wpM : DataPart := ⟨"m", 0, 25, 210, 0⟩

/-- A concrete table state with three adjacent untagged Active parts. -/
def wState : MTState := ⟨[wpA, wpB, wpC], [], [], [], 1000, "d", false⟩

/-- A concrete table state with a single Active part. -/
def wSingle : MTState := ⟨[wpA], [], [], [], 1000, "d", false⟩

/-- A concrete table state in which every Active part is already tagged. -/
def wAllTagged : MTState := ⟨[wpA, wpB], [], [wpA, wpB], [], 1000, "d", false⟩

/-! ### Helper lemmas about the set operations -/

theorem setInsertAll_cons (l : List DataPart) (p : DataPart) (rest : List DataPart) :
    setInsertAll l (p :: rest) = setInsertAll (setInsert l p) rest := rfl

theorem mem_setInsert (l : List DataPart) (p x : DataPart) :
    x ∈ setInsert l p ↔ x ∈ l ∨ x = p := by
  unfold setInsert
  split
  · constructor
    · exact Or.inl
    · rintro (h | rfl)
      · exact h
      · assumption
  · simp [List.mem_append]

theorem mem_setInsertAll (l ps : List DataPart) (x : DataPart) :
    x ∈ setInsertAll l ps ↔ x ∈ l ∨ x ∈ ps := by
  induction ps generalizing l with
  | nil => simp [setInsertAll]
  | cons p rest ih =>
    rw [setInsertAll_cons, ih, mem_setInsert]
    simp [List.mem_cons]
    tauto

theorem setInsertAll_fresh (ps : List DataPart) :
    ∀ l : List DataPart, (∀ p ∈ ps, p ∉ l) → ps.Nodup →
    setInsertAll l ps = l ++ ps := by
  induction ps with
  | nil => intro l _ _; simp [setInsertAll]
  | cons p rest ih =>
    intro l h hnd
    have hp : p ∉ l := h p (List.mem_cons_self p rest)
    rw [setInsertAll_cons]
    have hset : setInsert l p = l ++ [p] := by unfold setInsert; rw [if_neg hp]
    rw [hset, ih (l ++ [p]) ?_ (List.Nodup.of_cons hnd)]
    · simp
    · intro q hq
      simp only [List.mem_append, List.mem_singleton]
      rintro (hql | rfl)
      · exact h q (List.mem_cons_of_mem _ hq) hql
      · exact (List.nodup_cons.mp hnd).1 hq

theorem untagLoop_restore (ps : List DataPart) :
    ∀ cm : List DataPart, ps.Nodup → (∀ p ∈ ps, p ∉ cm) →
    untagLoop (cm ++ ps) ps = (cm, false) := by
  induction ps with
  | nil => intro cm _ _; simp [untagLoop]
  | cons p rest ih =>
    intro cm hnd h
    have hpmem : p ∈ cm ++ p :: rest :=
      List.mem_append_right _ (List.mem_cons_self p rest)
    have hpcm : p ∉ cm := h p (List.mem_cons_self p rest)
    have herase : (cm ++ p :: rest).erase p = cm ++ rest := by
      rw [List.erase_append_right _ hpcm, List.erase_cons_head]
    simp only [untagLoop, if_pos hpmem, herase]
    exact ih cm (List.Nodup.of_cons hnd) fun q hq => h q (List.mem_cons_of_mem _ hq)

theorem untagLoop_diff (ps : List DataPart) :
    ∀ cm : List DataPart, cm.Nodup → ps.Nodup → (∀ p ∈ ps, p ∈ cm) →
    untagLoop cm ps = (cm.diff ps, false) := by
  induction ps with
  | nil => intro cm _ _ _; simp [untagLoop]
  | cons p rest ih =>
    intro cm hcm hps h
    have hp : p ∈ cm := h p (List.mem_cons_self p rest)
    simp only [untagLoop, if_pos hp, List.diff_cons]
    refine ih (cm.erase p) (List.Nodup.erase p hcm) (List.Nodup.of_cons hps) ?_
    intro q hq
    have hqp : q ≠ p := by
      rintro rfl
      exact (List.nodup_cons.mp hps).1 hq
    exact (List.mem_erase_of_ne hqp).mpr (h q (List.mem_cons_of_mem _ hq))

theorem untagLoop_append (pre : List DataPart) :
    ∀ (cm cm1 l : List DataPart), untagLoop cm pre = (cm1, false) →
    untagLoop cm (pre ++ l) = untagLoop cm1 l := by
  induction pre with
  | nil =>
    intro cm cm1 l h
    simp only [untagLoop] at h
    simp [Prod.mk.injEq] at h
    rw [List.nil_append, h]
  | cons p rest ih =>
    intro cm cm1 l h
    simp only [untagLoop] at h ⊢
    by_cases hp : p ∈ cm
    · rw [if_pos hp] at h ⊢
      exact ih _ _ _ h
    · rw [if_neg hp] at h
      simp at h

theorem canMergeParts_untagged (s : MTState) (a b : DataPart)
    (h : canMergeParts s a b = true) :
    a ∉ s.currently_merging ∧ b ∉ s.currently_merging := by
  unfold canMergeParts at h
  simp only [Bool.and_eq_true, Bool.not_eq_true', decide_eq_false_iff_not] at h
  exact ⟨h.1.1.2, h.1.2⟩

/-! ### Helper lemmas about runs and the selector -/

/-- The relation that chains consecutive members of a mergeable run. -/
def CMRel (s : MTState) (a b : DataPart) : Prop := canMergeParts s a b = true

theorem splitRunsGo_chain (s : MTState) (l : List DataPart) :
    ∀ cur run, List.Chain' (CMRel s) run → run.getLast? = some cur →
    ∀ r ∈ splitRunsGo s cur run l, List.Chain' (CMRel s) r := by
  induction l with
  | nil =>
    intro cur run hc _ r hr
    simp only [splitRunsGo, List.mem_singleton] at hr
    subst hr; exact hc
  | cons p rest ih =>
    intro cur run hc hlast r hr
    simp only [splitRunsGo] at hr
    by_cases hcan : canMergeParts s cur p
    · rw [if_pos hcan] at hr
      refine ih p (run ++ [p]) ?_ (List.getLast?_concat run) r hr
      rw [List.chain'_append]
      refine ⟨hc, List.chain'_singleton p, ?_⟩
      intro x hx y hy
      rw [hlast, Option.mem_some_iff] at hx
      simp only [List.head?_cons, Option.mem_some_iff] at hy
      subst hx; subst hy
      exact hcan
    · rw [if_neg hcan] at hr
      rcases List.mem_cons.mp hr with rfl | hr
      · exact hc
      · exact ih p [p] (List.chain'_singleton p) rfl r hr

theorem splitRunsGo_sublist (s : MTState) (l : List DataPart) :
    ∀ cur run, ∀ r ∈ splitRunsGo s cur run l, List.Sublist r (run ++ l) := by
  induction l with
  | nil =>
    intro cur run r hr
    simp only [splitRunsGo, List.mem_singleton] at hr
    subst hr; simp
  | cons p rest ih =>
    intro cur run r hr
    simp only [splitRunsGo] at hr
    by_cases hcan : canMergeParts s cur p
    · rw [if_pos hcan] at hr
      have h := ih p (run ++ [p]) r hr
      simpa [List.append_assoc] using h
    · rw [if_neg hcan] at hr
      rcases List.mem_cons.mp hr with rfl | hr
      · exact List.sublist_append_left r (p :: rest)
      · exact (ih p [p] r hr).trans (List.sublist_append_right run (p :: rest))

theorem splitRuns_chain (s : MTState) (r : List DataPart) (hr : r ∈ splitRuns s) :
    List.Chain' (CMRel s) r := by
  unfold splitRuns at hr
  rcases hdp : s.dataParts with _ | ⟨p, rest⟩ <;> rw [hdp] at hr
  · cases hr
  · exact splitRunsGo_chain s rest p [p] (List.chain'_singleton p) rfl r hr

theorem splitRuns_sublist (s : MTState) (r : List DataPart) (hr : r ∈ splitRuns s) :
    List.Sublist r s.dataParts := by
  unfold splitRuns at hr
  rcases hdp : s.dataParts with _ | ⟨p, rest⟩ <;> rw [hdp] at hr
  · cases hr
  · exact splitRunsGo_sublist s rest p [p] r hr

theorem chain_untagged (s : MTState) :
    ∀ r : List DataPart, List.Chain' (CMRel s) r → 2 ≤ r.length →
    ∀ p ∈ r, p ∉ s.currently_merging := by
  intro r
  induction r with
  | nil => intro _ h; simp at h
  | cons a t ih =>
    intro hc hlen p hp
    cases t with
    | nil => simp at hlen
    | cons b t' =>
      have h1 := List.chain'_cons.mp hc
      have hab := canMergeParts_untagged s a b h1.1
      rcases List.mem_cons.mp hp with rfl | hp
      · exact hab.1
      · cases t' with
        | nil =>
          have hpb : p = b := by simpa using hp
          subst hpb; exact hab.2
        | cons c t'' => exact ih h1.2 (by simp) p hp

theorem pickBy_mem_aux {α : Type} (better : α → α → Bool) :
    ∀ (l : List α) (acc : Option α) (g : α),
      l.foldl (fun best r =>
        match best with
        | none => some r
        | some b => if better r b then some r else some b) acc = some g →
      g ∈ l ∨ acc = some g := by
  intro l
  induction l with
  | nil => intro acc g h; right; exact h
  | cons x t ih =>
    intro acc g h
    simp only [List.foldl_cons] at h
    rcases ih _ g h with hg | hacc
    · left; exact List.mem_cons_of_mem _ hg
    · cases acc with
      | none =>
        left
        have hx : x = g := by simpa using hacc
        exact hx ▸ List.mem_cons_self x t
      | some b =>
        by_cases hb : better x b
        · have hx : x = g := by simpa [hb] using hacc
          left; exact hx ▸ List.mem_cons_self x t
        · right; simpa [hb] using hacc

theorem pickBy_mem {α : Type} (better : α → α → Bool) (l : List α) (g : α)
    (h : pickBy better l = some g) : g ∈ l := by
  rcases pickBy_mem_aux better l none g h with hg | habs
  · exact hg
  · cases habs

theorem mem_foldr_append {α β : Type} (f : α → List β) (l : List α) (x : β) :
    x ∈ l.foldr (fun r acc => f r ++ acc) [] ↔ ∃ r ∈ l, x ∈ f r := by
  induction l with
  | nil => simp
  | cons a t ih => simp [List.mem_append, ih]

theorem mem_allInfixes (g r : List DataPart) : g ∈ allInfixes r ↔ List.IsInfix g r := by
  unfold allInfixes
  rw [mem_foldr_append]
  constructor
  · rintro ⟨t, ht, hg⟩
    exact List.infix_iff_prefix_suffix.mpr
      ⟨t, (List.mem_inits g t).mp hg, (List.mem_tails t r).mp ht⟩
  · intro h
    rcases List.infix_iff_prefix_suffix.mp h with ⟨t, hp, hs⟩
    exact ⟨t, (List.mem_tails t r).mpr hs, (List.mem_inits g t).mpr hp⟩

/-- Any group returned by the selector has length ≥ 2, consists of Active
parts, and none of its members is currently tagged. -/
theorem select_some_props (q : List DataPart → Bool) (a : Bool) (s : MTState)
    (g : List DataPart) (h : selectPartsToMerge q a s = some g) :
    2 ≤ g.length ∧ List.Sublist g s.dataParts ∧ ∀ p ∈ g, p ∉ s.currently_merging := by
  unfold selectPartsToMerge at h
  cases a with
  | true =>
    rw [if_pos rfl] at h
    have hg := pickBy_mem _ _ _ h
    unfold candidateRuns at hg
    have hg2 := List.mem_filter.mp hg
    have hlen : 2 ≤ g.length := of_decide_eq_true hg2.2
    have hchain := splitRuns_chain s g hg2.1
    exact ⟨hlen, splitRuns_sublist s g hg2.1, chain_untagged s g hchain hlen⟩
  | false =>
    rw [if_neg (by simp)] at h
    have hg := pickBy_mem _ _ _ h
    have hg1 := (List.mem_filter.mp hg).1
    unfold candidateSubRuns at hg1
    have hg2 := List.mem_filter.mp hg1
    have hlen : 2 ≤ g.length := of_decide_eq_true hg2.2
    rcases (mem_foldr_append _ _ _).mp hg2.1 with ⟨r, hr, hgr⟩
    have hinf : List.IsInfix g r := (mem_allInfixes g r).mp hgr
    have hchain : List.Chain' (CMRel s) g :=
      List.Chain'.infix (splitRuns_chain s r hr) hinf
    exact ⟨hlen, hinf.sublist.trans (splitRuns_sublist s r hr),
      chain_untagged s g hchain hlen⟩

/-! ### Helper lemmas about the tagger constructor, destructor and merge -/

theorem taggerConstruct_insufficient (g : List DataPart) (total : Nat) (s : MTState)
    (hlt : s.freeSpace < DiskSpaceMonitor.reservedSum s.reservations s.fullPath + total) :
    taggerConstruct g total s = (Except.error MergeError.InsufficientSpace, s) := by
  unfold taggerConstruct DiskSpaceMonitor.reserve
  rw [if_neg (by omega)]

theorem taggerConstruct_already_tagged (g : List DataPart) (total : Nat) (s : MTState)
    (hres : DiskSpaceMonitor.reservedSum s.reservations s.fullPath + total ≤ s.freeSpace)
    (hany : g.any (fun p => decide (p ∈ s.currently_merging)) = true) :
    taggerConstruct g total s = (Except.error MergeError.LogicalError, s) := by
  unfold taggerConstruct DiskSpaceMonitor.reserve
  rw [if_pos hres]
  simp only [hany, if_true]
  unfold DiskSpaceMonitor.release
  rw [List.erase_cons_head]

theorem taggerConstruct_ok (g : List DataPart) (total : Nat) (s : MTState)
    (hres : DiskSpaceMonitor.reservedSum s.reservations s.fullPath + total ≤ s.freeSpace)
    (huntag : ∀ p ∈ g, p ∉ s.currently_merging) :
    taggerConstruct g total s =
      (Except.ok ⟨g, ⟨s.fullPath, total⟩⟩,
        { s with reservations := ⟨s.fullPath, total⟩ :: s.reservations,
                 currently_merging := setInsertAll s.currently_merging g }) := by
  unfold taggerConstruct DiskSpaceMonitor.reserve
  rw [if_pos hres]
  have hany : g.any (fun p => decide (p ∈ s.currently_merging)) = false := by
    rw [List.any_eq_false]
    intro p hp
    simpa using huntag p hp
  simp only [hany, Bool.false_eq_true, if_false]

theorem taggerDestruct_of_fresh (g : List DataPart) (resv : Reservation)
    (s s' : MTState) (hgnd : g.Nodup) (huntag : ∀ p ∈ g, p ∉ s.currently_merging)
    (hcm : s'.currently_merging = setInsertAll s.currently_merging g)
    (hrs : s'.reservations = resv :: s.reservations) :
    taggerDestruct ⟨g, resv⟩ s' =
      { s' with currently_merging := s.currently_merging,
                reservations := s.reservations } := by
  unfold taggerDestruct DiskSpaceMonitor.release
  rw [hcm, hrs, setInsertAll_fresh g s.currently_merging huntag hgnd,
    untagLoop_restore g s.currently_merging hgnd huntag, List.erase_cons_head]

/-- Complete case analysis of `merge`: it either does nothing at all and
reports "no work", or the selector produced a group, the executor produced the
new part, and the only change is the atomic swap of the group for the new part
(tags and reservation both restored). -/
theorem merge_result (q : List DataPart → Bool) (exec : List DataPart → Option DataPart)
    (a : Bool) (s : MTState) (hnd : s.dataParts.Nodup) :
    merge q exec a s = (false, s) ∨
    ∃ g newPart, selectPartsToMerge q a s = some g ∧ exec g = some newPart ∧
      merge q exec a s =
        (true, { s with
          dataParts := s.dataParts.filter (fun p => !(decide (p ∈ g))) ++ [newPart],
          outdated := s.outdated ++ g }) := by
  rcases hsel : selectPartsToMerge q a s with _ | g
  · left; simp only [merge, hsel]
  · obtain ⟨hlen, hsub, huntag⟩ := select_some_props q a s g hsel
    have hgnd : g.Nodup := hsub.nodup hnd
    by_cases hres : DiskSpaceMonitor.reservedSum s.reservations s.fullPath
        + totalSize g ≤ s.freeSpace
    · have hcons := taggerConstruct_ok g (totalSize g) s hres huntag
      rcases hexec : exec g with _ | np
      · left
        simp only [merge, hsel, hcons, hexec]
        rw [taggerDestruct_of_fresh g ⟨s.fullPath, totalSize g⟩ s _ hgnd huntag rfl rfl]
      · right
        refine ⟨g, np, rfl, hexec, ?_⟩
        simp only [merge, hsel, hcons, hexec, commitSwap]
        rw [taggerDestruct_of_fresh g ⟨s.fullPath, totalSize g⟩ s _ hgnd huntag rfl rfl]
    · left
      simp only [merge, hsel, taggerConstruct_insufficient g (totalSize g) s (by omega)]

/-! ### Claim theorems -/

/-- C6: `optimize()` is exactly equivalent to `merge(aggressive = true)`,
executed synchronously on the calling thread (its body is literally
`return merge(true);`, StorageMergeTree.h:66-69), and it returns whether a
merge occurred — the same Boolean `merge` returns. -/
theorem optimize_eq_merge_aggressive (qualifies : List DataPart → Bool)
    (exec : List DataPart → Option DataPart) (s : MTState) :
    optimize qualifies exec s = merge qualifies exec true s := rfl

/-- C8: for every pair of parts, `canMergeParts(left, right)` returns true iff
`right` immediately follows `left` with no range gap, neither part is in the
currently-merging tag set, and (when partitioning is enabled) both share the
same partition key; it is false for any gap, overlap, or tagged operand. -/
theorem canMergeParts_iff (s : MTState) (left right : DataPart) :
    canMergeParts s left right = true ↔
      left.rangeEnd = right.rangeBegin ∧
      left ∉ s.currently_merging ∧
      right ∉ s.currently_merging ∧
      (s.partitioning = true → left.partitionKey = right.partitionKey) := by
  unfold canMergeParts
  simp only [Bool.and_eq_true, Bool.or_eq_true, Bool.not_eq_true',
    decide_eq_true_eq, decide_eq_false_iff_not]
  constructor
  · rintro ⟨⟨⟨h1, h2⟩, h3⟩, h4⟩
    refine ⟨h1, h2, h3, fun hp => ?_⟩
    rcases h4 with h4 | h4
    · rw [hp] at h4; cases h4
    · exact h4
  · rintro ⟨h1, h2, h3, h4⟩
    refine ⟨⟨⟨h1, h2⟩, h3⟩, ?_⟩
    by_cases hp : s.partitioning = true
    · exact Or.inr (h4 hp)
    · left; simpa using hp

/-- Witness for C8: the characterization applied at a concrete adjacent,
untagged, partition-compatible pair. -/
theorem canMergeParts_iff_witness :
    canMergeParts { wState with partitioning := true } wpA wpB = true :=
  (canMergeParts_iff { wState with partitioning := true } wpA wpB).mpr
    ⟨by decide, by decide, by decide, fun _ => by decide⟩

/-- C7: whenever the selector finds no qualifying group (for example a single
part, or all parts already tagged), `merge()` returns "no work" and the whole
state — in particular the PartSet and the currently-merging set — is exactly
as it was before the call. -/
theorem merge_no_candidate_frame (q : List DataPart → Bool)
    (exec : List DataPart → Option DataPart) (a : Bool) (s : MTState)
    (h : selectPartsToMerge q a s = none) :
    merge q exec a s = (false, s) := by
  simp only [merge, h]

/-- Witness for C7: a single-part table (aggressive) and an all-tagged table
(non-aggressive) both make the selector return none, and `merge` then returns
"no work" leaving the state untouched. -/
theorem merge_no_candidate_frame_witness :
    (selectPartsToMerge (fun _ => true) true wSingle = none ∧
      merge (fun _ => true) (fun _ => some wpM) true wSingle = (false, wSingle)) ∧
    (selectPartsToMerge (fun _ => true) false wAllTagged = none ∧
      merge (fun _ => true) (fun _ => none) false wAllTagged = (false, wAllTagged)) :=
  ⟨⟨by decide, merge_no_candidate_frame _ _ _ _ (by decide)⟩,
   ⟨by decide, merge_no_candidate_frame _ _ _ _ (by decide)⟩⟩

/-- C3: the disk reservation is requested first during tagger construction:
whenever the path lacks the requested space, construction fails with
`InsufficientSpace` and the state is returned exactly unchanged — no part was
inserted into the currently-merging set (this holds even if some group member
is already tagged, because the reservation is requested before the tag check) —
and `merge()` on such a state returns "no work" without side effects. -/
theorem reservation_requested_first (g : List DataPart) (total : Nat) (s : MTState)
    (hlt : s.freeSpace < DiskSpaceMonitor.reservedSum s.reservations s.fullPath + total) :
    taggerConstruct g total s = (Except.error MergeError.InsufficientSpace, s) ∧
    ∀ (q : List DataPart → Bool) (exec : List DataPart → Option DataPart) (a : Bool),
      selectPartsToMerge q a s = some g → total = totalSize g →
      merge q exec a s = (false, s) := by
  refine ⟨taggerConstruct_insufficient g total s hlt, ?_⟩
  intro q exec a hsel htot
  simp only [merge, hsel, taggerConstruct_insufficient g (totalSize g) s (htot ▸ hlt)]

/-- Witness for C3: on a table with no free space, tagging fails with
`InsufficientSpace` and `merge` reports "no work" with the state unchanged. -/
theorem reservation_requested_first_witness :
    taggerConstruct [wpA, wpB, wpC] 210 { wState with freeSpace := 0 }
      = (Except.error MergeError.InsufficientSpace, { wState with freeSpace := 0 }) ∧
    merge (fun _ => true) (fun _ => some wpM) true { wState with freeSpace := 0 }
      = (false, { wState with freeSpace := 0 }) := by
  have h := reservation_requested_first [wpA, wpB, wpC] 210
    { wState with freeSpace := 0 } (by decide)
  exact ⟨h.1, h.2 (fun _ => true) (fun _ => some wpM) true (by decide) (by decide)⟩

/-- C9: if tagger construction fails with `LogicalError` after the disk
reservation was already acquired (some group member was found already tagged),
the final state equals the initial state exactly: the reservation is released
during constructor unwinding (no leak — `reservations` is unchanged) and the
currently-merging set is untouched, because every member is checked before any
member is inserted. -/
theorem tagger_logical_error_releases (g : List DataPart) (total : Nat) (s : MTState)
    (hres : DiskSpaceMonitor.reservedSum s.reservations s.fullPath + total ≤ s.freeSpace)
    (hany : g.any (fun p => decide (p ∈ s.currently_merging)) = true) :
    taggerConstruct g total s = (Except.error MergeError.LogicalError, s) :=
  taggerConstruct_already_tagged g total s hres hany

/-- Witness for C9: tagging a group whose second member is already tagged, with
ample space, fails with `LogicalError` and leaves the state unchanged. -/
theorem tagger_logical_error_releases_witness :
    taggerConstruct [wpA, wpB] 200 { wState with currently_merging := [wpB] }
      = (Except.error MergeError.LogicalError,
         { wState with currently_merging := [wpB] }) :=
  tagger_logical_error_releases [wpA, wpB] 200
    { wState with currently_merging := [wpB] } (by decide) (by decide)

/-- C2: every invocation of `merge()` is all-or-nothing.  The currently-merging
set and the reservations are restored on every path; if no merge occurred
(any failure included, e.g. a MergeExecutor failure after tagging) the entire
state — in particular the PartSet — is exactly unchanged; if a merge occurred,
in the same atomic swap exactly one new part became Active and all of the
group's inputs became Outdated; and on every outcome the selected group's
parts are not in the currently-merging set afterwards. -/
theorem merge_all_or_nothing (q : List DataPart → Bool)
    (exec : List DataPart → Option DataPart) (a : Bool) (s : MTState)
    (hnd : s.dataParts.Nodup) :
    (merge q exec a s).2.currently_merging = s.currently_merging ∧
    (merge q exec a s).2.reservations = s.reservations ∧
    ((merge q exec a s).1 = false → (merge q exec a s).2 = s) ∧
    ((merge q exec a s).1 = true →
      ∃ g newPart, selectPartsToMerge q a s = some g ∧ exec g = some newPart ∧
        (merge q exec a s).2.dataParts =
          s.dataParts.filter (fun p => !(decide (p ∈ g))) ++ [newPart] ∧
        (merge q exec a s).2.outdated = s.outdated ++ g) ∧
    ∀ g, selectPartsToMerge q a s = some g →
      ∀ p ∈ g, p ∉ (merge q exec a s).2.currently_merging := by
  rcases merge_result q exec a s hnd with hm | ⟨g, np, hsel, hexec, hm⟩
  · rw [hm]
    refine ⟨rfl, rfl, fun _ => rfl, fun h => absurd h (by simp), ?_⟩
    intro g' hsel' p hp
    exact (select_some_props q a s g' hsel').2.2 p hp
  · rw [hm]
    refine ⟨rfl, rfl, fun h => absurd h (by simp),
      fun _ => ⟨g, np, hsel, hexec, rfl, rfl⟩, ?_⟩
    intro g' hsel' p hp
    exact (select_some_props q a s g' hsel').2.2 p hp

/-- Witness for C2 at a concrete three-part table: a successful merge keeps the
currently-merging set and reservations unchanged, and a merge whose executor
fails after tagging leaves the state exactly as before. -/
theorem merge_all_or_nothing_witness :
    wState.dataParts.Nodup ∧
    (merge (fun _ => true) (fun _ => some wpM) true wState).2.currently_merging
      = wState.currently_merging ∧
    ((merge (fun _ => true) (fun _ => none) true wState).1 = false →
      (merge (fun _ => true) (fun _ => none) true wState).2 = wState) :=
  ⟨by decide,
   (merge_all_or_nothing (fun _ => true) (fun _ => some wpM) true wState (by decide)).1,
   (merge_all_or_nothing (fun _ => true) (fun _ => none) true wState (by decide)).2.2.1⟩

/-- C4: for every successfully constructed tagger (its parts are tagged, i.e.
present in the currently-merging set), destruction removes exactly the group's
members from the set and releases the reservation; moreover the reservation
release happens for every tagger and state whatsoever — also when an
inconsistency is detected, since the destructor catches and only logs it. -/
theorem taggerDestruct_removes_all_and_releases (t : Tagger) (s : MTState)
    (hcm : s.currently_merging.Nodup) (hps : t.parts.Nodup)
    (hall : ∀ p ∈ t.parts, p ∈ s.currently_merging) :
    (∀ p ∈ t.parts, p ∉ (taggerDestruct t s).currently_merging) ∧
    (∀ p, p ∈ (taggerDestruct t s).currently_merging ↔
      p ∈ s.currently_merging ∧ p ∉ t.parts) ∧
    (taggerDestruct t s).reservations =
      DiskSpaceMonitor.release s.reservations t.reserved_space ∧
    ∀ (u : Tagger) (s' : MTState), (taggerDestruct u s').reservations =
      DiskSpaceMonitor.release s'.reservations u.reserved_space := by
  have h1 : untagLoop s.currently_merging t.parts =
      (s.currently_merging.diff t.parts, false) :=
    untagLoop_diff t.parts s.currently_merging hcm hps hall
  unfold taggerDestruct
  rw [h1]
  refine ⟨?_, ?_, rfl, fun u s' => rfl⟩
  · intro p hp hmem
    exact (hcm.mem_diff_iff.mp hmem).2 hp
  · intro p
    exact hcm.mem_diff_iff

/-- Witness for C4: destroying a tagger of two parts inside a three-part
currently-merging set removes exactly those two and releases the
reservation. -/
theorem taggerDestruct_removes_all_and_releases_witness :
    (wpA ∉ (taggerDestruct ⟨[wpA, wpB], ⟨"d", 210⟩⟩
      { wState with currently_merging := [wpA, wpB, wpC],
                    reservations := [⟨"d", 210⟩] }).currently_merging) ∧
    (taggerDestruct ⟨[wpA, wpB], ⟨"d", 210⟩⟩
      { wState with currently_merging := [wpA, wpB, wpC],
                    reservations := [⟨"d", 210⟩] }).reservations =
      DiskSpaceMonitor.release [⟨"d", 210⟩] ⟨"d", 210⟩ :=
  ⟨(taggerDestruct_removes_all_and_releases ⟨[wpA, wpB], ⟨"d", 210⟩⟩
      { wState with currently_merging := [wpA, wpB, wpC],
                    reservations := [⟨"d", 210⟩] }
      (by decide) (by decide) (by decide)).1 wpA (by decide),
   (taggerDestruct_removes_all_and_releases ⟨[wpA, wpB], ⟨"d", 210⟩⟩
      { wState with currently_merging := [wpA, wpB, wpC],
                    reservations := [⟨"d", 210⟩] }
      (by decide) (by decide) (by decide)).2.2.1⟩

/-- C10: if during destruction a group member is found absent from the
currently-merging set, the erase loop stops there: members after it in
iteration order are not removed (any of them still in the set stays in the
set), while the disk reservation is still released and no exception escapes
(the destructor returns a state normally). -/
theorem taggerDestruct_stops_at_first_absent (t : Tagger) (s : MTState)
    (pre : List DataPart) (x : DataPart) (post : List DataPart)
    (cm1 : List DataPart) (hsplit : t.parts = pre ++ x :: post)
    (hpre : untagLoop s.currently_merging pre = (cm1, false))
    (hx : x ∉ cm1) :
    (taggerDestruct t s).currently_merging = cm1 ∧
    (taggerDestruct t s).reservations =
      DiskSpaceMonitor.release s.reservations t.reserved_space ∧
    ∀ p ∈ post, p ∈ cm1 → p ∈ (taggerDestruct t s).currently_merging := by
  have h1 : untagLoop s.currently_merging t.parts = (cm1, true) := by
    rw [hsplit, untagLoop_append pre s.currently_merging cm1 (x :: post) hpre]
    simp only [untagLoop, if_neg hx]
  unfold taggerDestruct
  rw [h1]
  exact ⟨rfl, rfl, fun p _ hp => hp⟩

/-- Witness for C10: destroying a tagger of `[a, b, c]` when only `a` and `c`
are in the set erases `a`, stops at the absent `b`, and leaves `c` in the set,
while the reservation is still released. -/
theorem taggerDestruct_stops_at_first_absent_witness :
    (taggerDestruct ⟨[wpA, wpB, wpC], ⟨"d", 210⟩⟩
      { wState with currently_merging := [wpA, wpC],
                    reservations := [⟨"d", 210⟩] }).currently_merging = [wpC] ∧
    (taggerDestruct ⟨[wpA, wpB, wpC], ⟨"d", 210⟩⟩
      { wState with currently_merging := [wpA, wpC],
                    reservations := [⟨"d", 210⟩] }).reservations =
      DiskSpaceMonitor.release [⟨"d", 210⟩] ⟨"d", 210⟩ ∧
    wpC ∈ (taggerDestruct ⟨[wpA, wpB, wpC], ⟨"d", 210⟩⟩
      { wState with currently_merging := [wpA, wpC],
                    reservations := [⟨"d", 210⟩] }).currently_merging := by
  have h := taggerDestruct_stops_at_first_absent ⟨[wpA, wpB, wpC], ⟨"d", 210⟩⟩
    { wState with currently_merging := [wpA, wpC], reservations := [⟨"d", 210⟩] }
    [wpA] wpB [wpC] [wpC] (by decide) (by decide) (by decide)
  exact ⟨h.1, h.2.1, h.2.2 wpC (by decide) (by decide)⟩

/-! ### The tagging transition system and the locking discipline -/

theorem taggerConstruct_ok_inv (g : List DataPart) (total : Nat) (s : MTState)
    (t : Tagger) (s' : MTState)
    (h : taggerConstruct g total s = (Except.ok t, s')) :
    t.parts = g ∧ (∀ p ∈ g, p ∉ s.currently_merging) ∧
    s'.currently_merging = setInsertAll s.currently_merging g := by
  by_cases hres : DiskSpaceMonitor.reservedSum s.reservations s.fullPath
      + total ≤ s.freeSpace
  · by_cases hany : g.any (fun p => decide (p ∈ s.currently_merging)) = true
    · rw [taggerConstruct_already_tagged g total s hres hany] at h
      simp at h
    · have huntag : ∀ p ∈ g, p ∉ s.currently_merging := by
        have hf := List.any_eq_false.mp (Bool.eq_false_iff.mpr hany)
        intro p hp
        simpa using hf p hp
      rw [taggerConstruct_ok g total s hres huntag] at h
      rw [Prod.mk.injEq, Except.ok.injEq] at h
      obtain ⟨h1, h2⟩ := h
      exact ⟨by rw [← h1], huntag, by rw [← h2]⟩
  · rw [taggerConstruct_insufficient g total s (by omega)] at h
    simp at h

theorem schedInv_step (σ σ' : SchedState) (hInv : SchedInv σ)
    (hstep : SchedStep σ σ') : SchedInv σ' := by
  obtain ⟨hnd, htnd, hsub, hdisj⟩ := hInv
  cases hstep with
  | tag g total t mt' hgnd hcons =>
    obtain ⟨htp, hfresh, hcm'⟩ := taggerConstruct_ok_inv g total σ.mt t mt' hcons
    have hins : setInsertAll σ.mt.currently_merging g =
        σ.mt.currently_merging ++ g :=
      setInsertAll_fresh g σ.mt.currently_merging hfresh hgnd
    unfold SchedInv
    refine ⟨?_, ?_, ?_, ?_⟩
    · show mt'.currently_merging.Nodup
      rw [hcm', hins]
      exact hnd.append hgnd (fun p hp hpg => hfresh p hpg hp)
    · intro u hu
      rcases List.mem_cons.mp hu with rfl | hu
      · rw [htp]; exact hgnd
      · exact htnd u hu
    · intro u hu p hp
      show p ∈ mt'.currently_merging
      rw [hcm', mem_setInsertAll]
      rcases List.mem_cons.mp hu with rfl | hu
      · right; rw [← htp]; exact hp
      · left; exact hsub u hu p hp
    · rw [List.pairwise_cons]
      refine ⟨?_, hdisj⟩
      intro u hu p hp hpu
      exact hfresh p (htp ▸ hp) (hsub u hu p hpu)
  | untag t pre post heq =>
    have hmem' : ∀ u ∈ pre ++ post, u ∈ σ.inflight := by
      intro u hu
      rw [heq]
      rcases List.mem_append.mp hu with hu | hu
      · exact List.mem_append_left _ hu
      · exact List.mem_append_right _ (List.mem_cons_of_mem _ hu)
    have htmem : t ∈ σ.inflight := by
      rw [heq]; exact List.mem_append_right _ (List.mem_cons_self t post)
    have hdest : untagLoop σ.mt.currently_merging t.parts =
        (σ.mt.currently_merging.diff t.parts, false) :=
      untagLoop_diff t.parts σ.mt.currently_merging hnd (htnd t htmem)
        (hsub t htmem)
    have hcm' : (taggerDestruct t σ.mt).currently_merging =
        σ.mt.currently_merging.diff t.parts := by
      unfold taggerDestruct
      rw [hdest]
    rw [heq] at hdisj
    have hdisj' := List.pairwise_append.mp hdisj
    have hpost := List.pairwise_cons.mp hdisj'.2.1
    have hother : ∀ u ∈ pre ++ post, ∀ p ∈ u.parts, p ∉ t.parts := by
      intro u hu p hp
      rcases List.mem_append.mp hu with hu | hu
      · exact hdisj'.2.2 u hu t (List.mem_cons_self t post) p hp
      · intro hpt
        exact hpost.1 u hu p hpt hp
    unfold SchedInv
    refine ⟨?_, ?_, ?_, ?_⟩
    · show (taggerDestruct t σ.mt).currently_merging.Nodup
      rw [hcm']
      exact (List.diff_sublist _ _).nodup hnd
    · intro u hu
      exact htnd u (hmem' u hu)
    · intro u hu p hp
      show p ∈ (taggerDestruct t σ.mt).currently_merging
      rw [hcm', hnd.mem_diff_iff]
      exact ⟨hsub u (hmem' u hu) p hp, hother u hu p hp⟩
    · refine List.Pairwise.sublist ?_ hdisj
      exact (List.sublist_cons_self t post).append_left pre

/-- C1: tag-set exclusivity.  (1) In every reachable state of a table's merge
scheduler the in-flight merge groups are pairwise disjoint, so each part is a
member of at most one in-flight group's tag set at a time; and (2)
constructing a tagger whose group contains a part already present in the
currently-merging set fails with `LogicalError` (leaving the state unchanged),
which is what makes every tagging operation preserve the invariant. -/
theorem part_in_at_most_one_group (σ0 σ : SchedState)
    (h : SchedReachable σ0 σ) :
    List.Pairwise (fun t u => ∀ p ∈ t.parts, p ∉ u.parts) σ.inflight ∧
    ∀ (g : List DataPart) (total : Nat) (s : MTState) (p : DataPart),
      p ∈ g → p ∈ s.currently_merging →
      DiskSpaceMonitor.reservedSum s.reservations s.fullPath + total ≤ s.freeSpace →
      taggerConstruct g total s = (Except.error MergeError.LogicalError, s) := by
  constructor
  · obtain ⟨h0a, h0b, hr⟩ := h
    have hInv : SchedInv σ := by
      induction hr with
      | refl =>
        refine ⟨by rw [h0b]; exact List.nodup_nil, ?_, ?_, ?_⟩
        · intro u hu; rw [h0a] at hu; cases hu
        · intro u hu; rw [h0a] at hu; cases hu
        · rw [h0a]; exact List.Pairwise.nil
      | tail hab hbc ih => exact schedInv_step _ _ ih hbc
    exact hInv.2.2.2
  · intro g total s p hpg hpcm hres
    refine taggerConstruct_already_tagged g total s hres ?_
    rw [List.any_eq_true]
    exact ⟨p, hpg, by simpa using hpcm⟩

/-- Witness for C1: a state reached by actually tagging the group `[a, b]`
from the empty initial state satisfies the pairwise-disjointness invariant,
and tagging a group containing the already-tagged part `b` fails with
`LogicalError` without changing the state. -/
theorem part_in_at_most_one_group_witness :
    List.Pairwise (fun t u => ∀ p ∈ t.parts, p ∉ u.parts)
      [Tagger.mk [wpA, wpB] ⟨"d", 200⟩] ∧
    taggerConstruct [wpA, wpB] 300 { wState with currently_merging := [wpB] }
      = (Except.error MergeError.LogicalError,
         { wState with currently_merging := [wpB] }) := by
  have h := part_in_at_most_one_group ⟨wState, []⟩
    ⟨{ wState with currently_merging := [wpA, wpB],
                   reservations := [⟨"d", 200⟩] }, [Tagger.mk [wpA, wpB] ⟨"d", 200⟩]⟩
    ⟨rfl, rfl, Relation.ReflTransGen.single
      (SchedStep.tag ⟨wState, []⟩ [wpA, wpB] 200 (Tagger.mk [wpA, wpB] ⟨"d", 200⟩)
        { wState with currently_merging := [wpA, wpB],
                      reservations := [⟨"d", 200⟩] }
        (by decide) rfl)⟩
  exact ⟨h.1, h.2 [wpA, wpB] 300 _ wpB (by decide) (by decide) (by decide)⟩

/-- C5: the locking discipline of a merge invocation: the tag verification and
insertion (tagger construction) and the tag removal (tagger destruction) all
happen while the currently-merging mutex is held, while the merge execution
and the commit happen while it is not held — the mutex is never held across
the merge execution — and every trace ends with the mutex released (it is held
only during tag insertion/removal). -/
theorem mutex_discipline (r t e : Bool) (i : Nat)
    (hi : i < (mergeTrace r t e).length) :
    (((mergeTrace r t e).get ⟨i, hi⟩ = MergeEvent.checkTags ∨
      (mergeTrace r t e).get ⟨i, hi⟩ = MergeEvent.insertTags ∨
      (mergeTrace r t e).get ⟨i, hi⟩ = MergeEvent.removeTags) →
      heldBefore (mergeTrace r t e) i = true) ∧
    (((mergeTrace r t e).get ⟨i, hi⟩ = MergeEvent.execMerge ∨
      (mergeTrace r t e).get ⟨i, hi⟩ = MergeEvent.commitParts) →
      heldBefore (mergeTrace r t e) i = false) ∧
    heldBefore (mergeTrace r t e) (mergeTrace r t e).length = false := by
  revert hi
  revert i
  rcases r <;> rcases t <;> rcases e <;> decide

/-- Witness for C5 on the trace of a fully successful merge: the tag insertion
(event 3) happens with the mutex held, the merge execution (event 5) with the
mutex released. -/
theorem mutex_discipline_witness :
    heldBefore (mergeTrace true true true) 3 = true ∧
    heldBefore (mergeTrace true true true) 5 = false := by
  have h3 := mutex_discipline true true true 3 (by decide)
  have h5 := mutex_discipline true true true 5 (by decide)
  exact ⟨h3.1 (by decide), h5.2.1 (by decide)⟩
